import Mathlib

/-!
Shallow embedding of the `terminal-ui` crate (`src/terminal-ui/src/app/state.rs`,
`src/terminal-ui/src/app/render.rs`, `src/terminal-ui/src/main.rs`).

Modelling choices:
* `f64` progress values are modelled as `ℚ`; `f64::min` is `min` on `ℚ`.
* The `Arc<AtomicBool>` cancellation flag is the `cancelation : Bool` field of
  `Host`; a worker's reads of the flag through its `Weak` handle are an
  environment trace `hdl : Nat → Option Bool` (`none` models a failed
  `upgrade()` after the owning `Arc` was dropped).
* The busy-wait in the `y`-branch of `Host::handle_should_exit` re-reads
  `Arc::weak_count` each poll; those successive observations are an
  environment trace `counts : List Nat` (the workers drop their handles
  asynchronously).  An empty remaining trace means the loop never observed
  zero, i.e. it does not terminate: the handler then returns `none`.
* `thread::spawn` of a worker (which receives a fresh `Weak` handle via
  `Arc::downgrade`) is recorded by incrementing the ghost counter `spawns`.
* The channel endpoints `tx`/`rx` carry no state and are omitted; event
  delivery is modelled by applying `processEvent` to a delivered event.
* The worker loop is given explicit fuel; `WorkerResult.outOfFuel` marks fuel
  exhaustion and is never an actual behaviour of the source loop.
-/

namespace TUI

/-- Kind of a crossterm `KeyEvent` (`KeyEventKind`): press, repeat or release. -/
inductive KeyEventKind where
  | Press
  | Repeat
  | Release
  deriving DecidableEq

/-- crossterm `KeyCode`; the host only inspects `Char`, `Left` and `Right`,
every other variant is collapsed into `Other`. -/
inductive KeyCode where
  | Char (c : Char)
  | Left
  | Right
  | Other
  deriving DecidableEq

/-- crossterm `KeyEvent`, restricted to the fields the host reads. -/
structure KeyEvent where
  kind : KeyEventKind
  code : KeyCode
  deriving DecidableEq

/-- `app::state::Event`. -/
inductive Event where
  | KeyInput (k : KeyEvent)
  | BackgroundTask (progress : ℚ)
  deriving DecidableEq

/-- `app::state::HostState`. -/
inductive HostState where
  | Running
  | ShuttingDown
  | Completed
  deriving DecidableEq

/-- `app::state::SelectedTab`. -/
inductive SelectedTab where
  | Tab1
  | Tab2
  | Tab3
  | Tab4
  deriving DecidableEq

/-- `tab as usize` (the discriminant used by `strum::FromRepr`). -/
def SelectedTab.toRepr : SelectedTab → Nat
  | .Tab1 => 0
  | .Tab2 => 1
  | .Tab3 => 2
  | .Tab4 => 3

/-- `SelectedTab::from_repr` derived by `strum::FromRepr`. -/
def SelectedTab.from_repr : Nat → Option SelectedTab
  | 0 => some .Tab1
  | 1 => some .Tab2
  | 2 => some .Tab3
  | 3 => some .Tab4
  | _ => none

/-- `Host` (`render.rs`): UI state.  `cancelation` is the current value of the
shared `AtomicBool`; `spawns` is a ghost count of `thread::spawn` calls made in
the `r`-branch, each of which hands a fresh `Weak` handle to a worker. -/
structure Host where
  state : HostState
  tab : SelectedTab
  background_progress : ℚ
  cancelation : Bool
  spawns : Nat
  deriving DecidableEq

/-- `Host::new`. -/
def Host.new : Host :=
  { state := .Running, tab := .Tab1, background_progress := 0,
    cancelation := false, spawns := 0 }

/-- `Host::handle_key_event` (`render.rs`, the `Running`-state key handler). -/
def handle_key_event (h : Host) (key_event : KeyEvent) : Host :=
  match key_event.kind with
  | .Press =>
    match key_event.code with
    | .Char 'q' | .Char 'Q' => { h with state := .ShuttingDown }
    | .Char 'c' | .Char 'C' => { h with cancelation := true }
    | .Char 'r' | .Char 'R' =>
        let h1 := if h.cancelation = true then { h with cancelation := false } else h
        { h1 with spawns := h1.spawns + 1 }
    | .Right =>
        let cur := h.tab.toRepr
        let next := cur + 1
        let t := (SelectedTab.from_repr next).getD ((SelectedTab.from_repr cur).getD h.tab)
        { h with tab := t }
    | .Left =>
        let cur := h.tab.toRepr
        let prev := cur - 1
        let t := (SelectedTab.from_repr prev).getD ((SelectedTab.from_repr cur).getD h.tab)
        { h with tab := t }
    | _ => h
  | _ => h

/-- The `y`-branch busy-wait of `Host::handle_should_exit`:
`while Arc::weak_count(..) > 0 { if flag == false { store true }; sleep(10ms) }`.
`counts` is the trace of successive `Arc::weak_count` reads; the result is the
final flag value, or `none` when the trace never shows zero (the loop spins). -/
def confirmYLoop : List Nat → Bool → Option Bool
  | [], _ => none
  | c :: rest, flag =>
      if c = 0 then some flag
      else confirmYLoop rest true

/-- `Host::handle_should_exit` (`render.rs`, the `ShuttingDown`-state key
handler).  Returns `none` when the `y`-branch busy-wait never terminates. -/
def handle_should_exit (counts : List Nat) (h : Host) (key_event : KeyEvent) :
    Option Host :=
  match key_event.kind with
  | .Press =>
    match key_event.code with
    | .Char 'y' | .Char 'Y' =>
        match confirmYLoop counts h.cancelation with
        | some flag => some { h with cancelation := flag, state := .Completed }
        | none => none
    | .Char 'n' | .Char 'N' => some { h with state := .Running }
    | _ => some h
  | _ => some h

/-- The event dispatch of `Host::run`: one received event applied to the host. -/
def processEvent (counts : List Nat) (h : Host) (ev : Event) : Option Host :=
  match ev with
  | .KeyInput key_event =>
    match h.state with
    | .Completed => some h
    | .Running => some (handle_key_event h key_event)
    | .ShuttingDown => handle_should_exit counts h key_event
  | .BackgroundTask progress => some { h with background_progress := progress }

/-- One iteration of the `Host::run` loop: dispatch the event, then call
`terminal.draw` exactly once with the updated host.  The second component is
the list of host values passed to `draw` during the iteration. -/
def runStep (counts : List Nat) (h : Host) (ev : Event) :
    Option (Host × List Host) :=
  match processEvent counts h ev with
  | some h2 => some (h2, [h2])
  | none => none

/-- A raw crossterm terminal event: a key event, or anything else
(resize, mouse, paste). -/
inductive TermEvent where
  | Key (k : KeyEvent)
  | NonKey
  deriving DecidableEq

/-- One iteration of `Host::handle_key_input`: key events are forwarded to the
channel unconditionally (no filtering on `kind`), all other terminal events
are dropped. -/
def forwardInput : TermEvent → Option Event
  | .Key k => some (Event.KeyInput k)
  | .NonKey => none

/-- Outcome of a worker run: the list of progress values it sent, tagged with
how it ended.  `panicked` is the `unwrap` failure on a dead `Weak` handle;
`outOfFuel` is a modelling artefact (the fuel bound was hit). -/
inductive WorkerResult where
  | finished (sent : List ℚ)
  | panicked (sent : List ℚ)
  | outOfFuel (sent : List ℚ)
  deriving DecidableEq

/-- Record one more sent progress value in front of a worker outcome. -/
def WorkerResult.push (v : ℚ) : WorkerResult → WorkerResult
  | .finished s => .finished (v :: s)
  | .panicked s => .panicked (v :: s)
  | .outOfFuel s => .outOfFuel (v :: s)

/-- The progress values a worker run sent, in order. -/
def WorkerResult.sent : WorkerResult → List ℚ
  | .finished s => s
  | .panicked s => s
  | .outOfFuel s => s

/-- `Duration::from_millis(500)`: the fixed tick the worker sleeps each
iteration (`main.rs`). -/
def tickMillis : Nat := 500

/-- `let increment = 0.01_f64` (`main.rs`). -/
def increment : ℚ := 1 / 100

/-- One loop-body progress update of `background_task`:
`progress += increment; progress = progress.min(1.0)`. -/
def advance (inc p : ℚ) : ℚ := min (p + inc) 1

/-- Progress after `n` worker ticks starting from `p`. -/
def advanceN (inc p : ℚ) : Nat → ℚ
  | 0 => p
  | n + 1 => advance inc (advanceN inc p n)

/-- The first `n` progress values a worker starting at `p` sends (one per
tick, each the post-update clamped progress). -/
def sentList (inc p : ℚ) : Nat → List ℚ
  | 0 => []
  | n + 1 => advance inc p :: sentList inc (advance inc p) n

/-- The loop of `background_task` (`main.rs`):
`while !cancel.upgrade().unwrap().load(..) && progress < 1.0 { sleep(tick);
progress += increment; progress = progress.min(1.0); send(progress) }`.
`hdl i` is the result of `cancel.upgrade().map(load)` at the `i`-th condition
check (`none`: the owning `Arc` is gone and `unwrap` panics); `i` is the check
index and `p` the current progress. -/
def workerLoop (hdl : Nat → Option Bool) (inc : ℚ) : Nat → Nat → ℚ → WorkerResult
  | 0, _, _ => .outOfFuel []
  | fuel + 1, i, p =>
    match hdl i with
    | none => .panicked []
    | some true => .finished []
    | some false =>
      if p < 1 then (workerLoop hdl inc fuel (i + 1) (advance inc p)).push (advance inc p)
      else .finished []

/-- `<Host as Task>::background_task` (`main.rs`): progress starts at `0`,
the increment is `increment`, the first flag read is check `0`. -/
def background_task (hdl : Nat → Option Bool) (fuel : Nat) : WorkerResult :=
  workerLoop hdl increment fuel 0 0

/-! ### Supporting lemmas -/

lemma SelectedTab.toRepr_le_three (t : SelectedTab) : t.toRepr ≤ 3 := by
  cases t <;> simp [SelectedTab.toRepr]

lemma confirmYLoop_spec :
    ∀ (counts : List Nat) (flag r : Bool), confirmYLoop counts flag = some r →
      ∃ k, k < counts.length ∧ counts.getD k 1 = 0 ∧
        (∀ j, j < k → counts.getD j 0 ≠ 0) ∧ (0 < k → r = true) ∧ (k = 0 → r = flag) := by
  intro counts
  induction counts with
  | nil => intro flag r h; simp [confirmYLoop] at h
  | cons c rest ih =>
    intro flag r h
    simp only [confirmYLoop] at h
    by_cases hc : c = 0
    · rw [if_pos hc] at h
      obtain rfl : flag = r := by injection h
      exact ⟨0, by simp, by simpa using hc, by omega, by omega, fun _ => rfl⟩
    · rw [if_neg hc] at h
      obtain ⟨k, hk, h0, hprev, hpos, hzero⟩ := ih true r h
      refine ⟨k + 1, by simpa using Nat.succ_lt_succ hk, by simpa using h0, ?_, ?_, ?_⟩
      · intro j hj
        cases j with
        | zero => simpa using hc
        | succ j => simpa using hprev j (Nat.lt_of_succ_lt_succ hj)
      · intro _
        rcases Nat.eq_zero_or_pos k with rfl | hkpos
        · exact hzero rfl
        · exact hpos hkpos
      · omega

lemma confirmYLoop_none :
    ∀ (counts : List Nat) (flag : Bool), (∀ c ∈ counts, c ≠ 0) →
      confirmYLoop counts flag = none := by
  intro counts
  induction counts with
  | nil => intro flag _; rfl
  | cons c rest ih =>
    intro flag hall
    simp only [confirmYLoop]
    rw [if_neg (hall c (List.mem_cons_self c rest))]
    exact ih true fun x hx => hall x (List.mem_cons_of_mem c hx)

/-! ### Claim theorems -/

/-- C1: for every tab value and every stored progress value, a KeyInput press
of `q` (or `Q`) while the host is `Running` moves it to `ShuttingDown`
(ConfirmingExit), and a subsequent press of `n` (or `N`) in `ShuttingDown`
returns it to `Running` with the selected tab and the stored progress exactly
as they were before. -/
theorem c1_quit_confirm_roundtrip (counts : List Nat) (h : Host) (c d : Char)
    (hs : h.state = .Running) (hc : c = 'q' ∨ c = 'Q') (hd : d = 'n' ∨ d = 'N') :
    ∃ h1 h2, processEvent counts h (.KeyInput ⟨.Press, .Char c⟩) = some h1
      ∧ h1.state = .ShuttingDown
      ∧ h1.tab = h.tab ∧ h1.background_progress = h.background_progress
      ∧ processEvent counts h1 (.KeyInput ⟨.Press, .Char d⟩) = some h2
      ∧ h2.state = .Running
      ∧ h2.tab = h.tab ∧ h2.background_progress = h.background_progress := by
  obtain ⟨st, tb, pr, cl, sp⟩ := h
  replace hs : st = HostState.Running := hs
  subst hs
  rcases hc with rfl | rfl <;> rcases hd with rfl | rfl <;>
    exact ⟨⟨.ShuttingDown, tb, pr, cl, sp⟩, ⟨.Running, tb, pr, cl, sp⟩,
      rfl, rfl, rfl, rfl, rfl, rfl, rfl, rfl⟩

/-- C1 witness: the roundtrip at the initial host with `q` then `n`. -/
theorem c1_quit_confirm_roundtrip_witness :
    ∃ h1 h2, processEvent [] Host.new (.KeyInput ⟨.Press, .Char 'q'⟩) = some h1
      ∧ h1.state = .ShuttingDown
      ∧ h1.tab = Host.new.tab ∧ h1.background_progress = Host.new.background_progress
      ∧ processEvent [] h1 (.KeyInput ⟨.Press, .Char 'n'⟩) = some h2
      ∧ h2.state = .Running
      ∧ h2.tab = Host.new.tab ∧ h2.background_progress = Host.new.background_progress :=
  c1_quit_confirm_roundtrip [] Host.new 'q' 'n' rfl (Or.inl rfl) (Or.inl rfl)

/-- C4: for every sequence of Left/Right arrow presses applied by the
`Running`-state key handler from any starting host, the selected tab index
stays within `[0, 3]`, and the clamp at each end is idempotent: a Right press
on the last tab leaves the last tab selected and a Left press on the first tab
leaves the first tab selected (no wraparound). -/
theorem c4_tab_clamp (h : Host) (dirs : List KeyCode)
    (_hdirs : ∀ k ∈ dirs, k = KeyCode.Left ∨ k = KeyCode.Right) :
    (List.foldl (fun a k => handle_key_event a ⟨.Press, k⟩) h dirs).tab.toRepr ≤ 3
    ∧ (h.tab = .Tab4 → (handle_key_event h ⟨.Press, .Right⟩).tab = .Tab4)
    ∧ (h.tab = .Tab1 → (handle_key_event h ⟨.Press, .Left⟩).tab = .Tab1) := by
  obtain ⟨st, tb, pr, cl, sp⟩ := h
  refine ⟨SelectedTab.toRepr_le_three _, ?_, ?_⟩ <;> intro ht <;>
    replace ht : tb = _ := ht <;> subst ht <;> rfl

/-- C4 witness: two Right presses then a Left press from the initial host. -/
theorem c4_tab_clamp_witness :
    (List.foldl (fun a k => handle_key_event a ⟨.Press, k⟩) Host.new
        [KeyCode.Right, KeyCode.Right, KeyCode.Left]).tab.toRepr ≤ 3
    ∧ (Host.new.tab = .Tab4 →
        (handle_key_event Host.new ⟨.Press, .Right⟩).tab = .Tab4)
    ∧ (Host.new.tab = .Tab1 →
        (handle_key_event Host.new ⟨.Press, .Left⟩).tab = .Tab1) :=
  c4_tab_clamp Host.new [KeyCode.Right, KeyCode.Right, KeyCode.Left] (by decide)

/-- C5: processing a `BackgroundTask p` event changes only the stored progress
value (state and tab are untouched), and the run-loop iteration triggers
exactly one render pass, with the render seeing the already-updated host. -/
theorem c5_progress_event_frame (counts : List Nat) (h : Host) (p : ℚ) :
    runStep counts h (.BackgroundTask p) =
      some ({ h with background_progress := p }, [{ h with background_progress := p }])
    ∧ ({ h with background_progress := p } : Host).state = h.state
    ∧ ({ h with background_progress := p } : Host).tab = h.tab
    ∧ ({ h with background_progress := p } : Host).background_progress = p :=
  ⟨rfl, rfl, rfl, rfl⟩

/-- C7: a press of `r` (or `R`) while `Running` leaves the host with the
cancellation flag false (reset before the spawn) and exactly one more spawned
worker (which received a fresh `Weak` handle), while state, tab and stored
progress are unchanged. -/
theorem c7_restart_resets_flag (counts : List Nat) (h : Host) (c : Char)
    (hs : h.state = .Running) (hc : c = 'r' ∨ c = 'R') :
    ∃ h2, processEvent counts h (.KeyInput ⟨.Press, .Char c⟩) = some h2
      ∧ h2.cancelation = false
      ∧ h2.spawns = h.spawns + 1
      ∧ h2.state = h.state ∧ h2.tab = h.tab
      ∧ h2.background_progress = h.background_progress := by
  obtain ⟨st, tb, pr, cl, sp⟩ := h
  replace hs : st = HostState.Running := hs
  subst hs
  rcases hc with rfl | rfl <;> cases cl <;>
    exact ⟨⟨.Running, tb, pr, false, sp + 1⟩, rfl, rfl, rfl, rfl, rfl, rfl⟩

/-- C7 witness: `r` pressed on a running host whose flag is currently true. -/
theorem c7_restart_resets_flag_witness :
    ∃ h2, processEvent [] { Host.new with cancelation := true }
        (.KeyInput ⟨.Press, .Char 'r'⟩) = some h2
      ∧ h2.cancelation = false
      ∧ h2.spawns = ({ Host.new with cancelation := true } : Host).spawns + 1
      ∧ h2.state = ({ Host.new with cancelation := true } : Host).state
      ∧ h2.tab = ({ Host.new with cancelation := true } : Host).tab
      ∧ h2.background_progress =
          ({ Host.new with cancelation := true } : Host).background_progress :=
  c7_restart_resets_flag [] { Host.new with cancelation := true } 'r' rfl (Or.inl rfl)

/-- C10: a key event whose kind is not a press leaves the host completely
unchanged in every state (so in particular state, tab, progress and the
cancellation flag are untouched in both `Running` and `ShuttingDown`), even
though the input thread forwards such events to the channel unconditionally. -/
theorem c10_non_press_noop (counts : List Nat) (h : Host) (ev : KeyEvent)
    (hk : ev.kind ≠ .Press) :
    handle_key_event h ev = h
    ∧ handle_should_exit counts h ev = some h
    ∧ processEvent counts h (.KeyInput ev) = some h
    ∧ forwardInput (.Key ev) = some (.KeyInput ev) := by
  obtain ⟨kind, code⟩ := ev
  obtain ⟨st, tb, pr, cl, sp⟩ := h
  cases kind with
  | Press => exact absurd rfl hk
  | Repeat => exact ⟨rfl, rfl, by cases st <;> rfl, rfl⟩
  | Release => exact ⟨rfl, rfl, by cases st <;> rfl, rfl⟩

/-- C10 witness: a release of `q` on the initial host. -/
theorem c10_non_press_noop_witness :
    handle_key_event Host.new ⟨.Release, .Char 'q'⟩ = Host.new
    ∧ handle_should_exit [] Host.new ⟨.Release, .Char 'q'⟩ = some Host.new
    ∧ processEvent [] Host.new (.KeyInput ⟨.Release, .Char 'q'⟩) = some Host.new
    ∧ forwardInput (.Key ⟨.Release, .Char 'q'⟩) =
        some (.KeyInput ⟨.Release, .Char 'q'⟩) :=
  c10_non_press_noop [] Host.new ⟨.Release, .Char 'q'⟩ (by decide)

/-- C3: a press of `y` (or `Y`) in `ShuttingDown` completes only after the
observed weak-handle count (worker liveness) has reached zero: whenever the
handler returns, the host is `Completed` and the wait stopped at the first
zero observation, with every earlier observation nonzero and the cancellation
flag forced true whenever any wait iteration ran; if every observation in the
trace is nonzero the handler never returns (the terminal state is never set
while a worker handle is outstanding). -/
theorem c3_exit_waits_for_liveness (counts : List Nat) (h : Host) (c : Char)
    (hs : h.state = .ShuttingDown) (hc : c = 'y' ∨ c = 'Y') :
    (∀ h2, processEvent counts h (.KeyInput ⟨.Press, .Char c⟩) = some h2 →
      h2.state = .Completed
      ∧ ∃ k, k < counts.length ∧ counts.getD k 1 = 0
          ∧ (∀ j, j < k → counts.getD j 0 ≠ 0)
          ∧ (0 < k → h2.cancelation = true))
    ∧ ((∀ cnt ∈ counts, cnt ≠ 0) →
        processEvent counts h (.KeyInput ⟨.Press, .Char c⟩) = none) := by
  obtain ⟨st, tb, pr, cl, sp⟩ := h
  replace hs : st = HostState.ShuttingDown := hs
  subst hs
  rcases hc with rfl | rfl <;> constructor
  case' mk.inl.left | mk.inr.left =>
    intro h2 heq
    have heq2 : (match confirmYLoop counts cl with
        | some flag => some (⟨.Completed, tb, pr, flag, sp⟩ : Host)
        | none => none) = some h2 := heq
    cases hcl : confirmYLoop counts cl with
    | none => rw [hcl] at heq2; cases heq2
    | some flag =>
      rw [hcl] at heq2
      obtain rfl : (⟨.Completed, tb, pr, flag, sp⟩ : Host) = h2 := by injection heq2
      obtain ⟨k, hk, h0, hprev, hpos, _⟩ := confirmYLoop_spec counts cl flag hcl
      exact ⟨rfl, k, hk, h0, hprev, fun hkpos => hpos hkpos⟩
  case' mk.inl.right | mk.inr.right =>
    intro hall
    show (match confirmYLoop counts cl with
        | some flag => some (⟨.Completed, tb, pr, flag, sp⟩ : Host)
        | none => none) = none
    rw [confirmYLoop_none counts cl hall]

/-- C3 witness: a wait trace that observes liveness 2, then 1, then 0. -/
theorem c3_exit_waits_for_liveness_witness :
    (∀ h2, processEvent [2, 1, 0] { Host.new with state := .ShuttingDown }
        (.KeyInput ⟨.Press, .Char 'y'⟩) = some h2 →
      h2.state = .Completed
      ∧ ∃ k, k < ([2, 1, 0] : List Nat).length ∧ ([2, 1, 0] : List Nat).getD k 1 = 0
          ∧ (∀ j, j < k → ([2, 1, 0] : List Nat).getD j 0 ≠ 0)
          ∧ (0 < k → h2.cancelation = true))
    ∧ ((∀ cnt ∈ ([2, 1, 0] : List Nat), cnt ≠ 0) →
        processEvent [2, 1, 0] { Host.new with state := .ShuttingDown }
          (.KeyInput ⟨.Press, .Char 'y'⟩) = none) :=
  c3_exit_waits_for_liveness [2, 1, 0] { Host.new with state := .ShuttingDown } 'y'
    rfl (Or.inl rfl)

lemma workerLoop_zero (hdl : Nat → Option Bool) (inc : ℚ) (i : Nat) (p : ℚ) :
    workerLoop hdl inc 0 i p = .outOfFuel [] := rfl

lemma workerLoop_succ_none (hdl : Nat → Option Bool) (inc : ℚ) (fuel i : Nat) (p : ℚ)
    (h : hdl i = none) : workerLoop hdl inc (fuel + 1) i p = .panicked [] := by
  unfold workerLoop
  rw [h]

lemma workerLoop_succ_true (hdl : Nat → Option Bool) (inc : ℚ) (fuel i : Nat) (p : ℚ)
    (h : hdl i = some true) : workerLoop hdl inc (fuel + 1) i p = .finished [] := by
  unfold workerLoop
  rw [h]

lemma workerLoop_succ_false (hdl : Nat → Option Bool) (inc : ℚ) (fuel i : Nat) (p : ℚ)
    (h : hdl i = some false) :
    workerLoop hdl inc (fuel + 1) i p =
      if p < 1 then (workerLoop hdl inc fuel (i + 1) (advance inc p)).push (advance inc p)
      else .finished [] := by
  conv_lhs => rw [workerLoop]
  rw [h]

lemma WorkerResult.sent_push (v : ℚ) (r : WorkerResult) :
    (r.push v).sent = v :: r.sent := by
  cases r <;> rfl

lemma advance_le_one (inc p : ℚ) : advance inc p ≤ 1 := min_le_right _ _

lemma advance_nonneg (inc p : ℚ) (hinc : 0 ≤ inc) (hp : 0 ≤ p) : 0 ≤ advance inc p :=
  le_min (by linarith) (by norm_num)

lemma le_advance (inc p : ℚ) (hinc : 0 ≤ inc) (hp : p ≤ 1) : p ≤ advance inc p :=
  le_min (by linarith) hp

lemma advanceN_succ_left (inc p : ℚ) (n : Nat) :
    advanceN inc p (n + 1) = advanceN inc (advance inc p) n := by
  induction n with
  | zero => rfl
  | succ n ih =>
    show advance inc (advanceN inc p (n + 1)) = advance inc (advanceN inc (advance inc p) n)
    rw [ih]

lemma advanceN_formula (inc : ℚ) (hinc : 0 ≤ inc) :
    ∀ N : Nat, advanceN inc 0 N = min 1 ((N : ℚ) * inc) := by
  intro N
  induction N with
  | zero => simp [advanceN]
  | succ N ih =>
    have lhs : advanceN inc 0 (N + 1) = advance inc (min 1 ((N : ℚ) * inc)) := by
      show advance inc (advanceN inc 0 N) = _
      rw [ih]
    rw [lhs, Nat.cast_succ]
    have hexp : ((N : ℚ) + 1) * inc = (N : ℚ) * inc + inc := by ring
    rw [hexp]
    simp only [advance]
    rcases le_total ((N : ℚ) * inc) 1 with hle | hle
    · rw [min_eq_right hle, min_comm]
    · rw [min_eq_left hle, min_eq_right (by linarith), min_eq_left (by linarith)]

lemma workerLoop_finished_spec (g : Nat → Bool) (inc : ℚ) :
    ∀ (fuel i : Nat) (p : ℚ) (msgs : List ℚ),
      workerLoop (fun j => some (g j)) inc fuel i p = .finished msgs →
      msgs = sentList inc p msgs.length
      ∧ (∀ j, j < msgs.length → g (i + j) = false ∧ advanceN inc p j < 1)
      ∧ (g (i + msgs.length) = true ∨ 1 ≤ advanceN inc p msgs.length) := by
  intro fuel
  induction fuel with
  | zero =>
    intro i p msgs h
    rw [workerLoop_zero] at h
    cases h
  | succ fuel ih =>
    intro i p msgs h
    cases hg : g i with
    | true =>
      rw [workerLoop_succ_true _ _ _ _ _ (congrArg some hg)] at h
      obtain rfl : ([] : List ℚ) = msgs := by injection h
      exact ⟨rfl, by simp, Or.inl (by simpa using hg)⟩
    | false =>
      rw [workerLoop_succ_false _ _ _ _ _ (congrArg some hg)] at h
      by_cases hp : p < 1
      · rw [if_pos hp] at h
        cases hrec : workerLoop (fun j => some (g j)) inc fuel (i + 1) (advance inc p) with
        | finished rest =>
          rw [hrec] at h
          simp only [WorkerResult.push] at h
          obtain rfl : advance inc p :: rest = msgs := by injection h
          obtain ⟨e1, e2, e3⟩ := ih (i + 1) (advance inc p) rest hrec
          refine ⟨?_, ?_, ?_⟩
          · show advance inc p :: rest = sentList inc p (rest.length + 1)
            rw [sentList]
            exact congrArg (List.cons (advance inc p)) e1
          · intro j hj
            cases j with
            | zero =>
              refine ⟨by simpa using hg, ?_⟩
              show advanceN inc p 0 < 1
              simpa [advanceN] using hp
            | succ j =>
              have hj2 : j < rest.length := by
                simpa [List.length_cons] using hj
              obtain ⟨hg2, hlt⟩ := e2 j hj2
              refine ⟨?_, ?_⟩
              · have harith : i + (j + 1) = i + 1 + j := by omega
                rw [harith]
                exact hg2
              · rw [advanceN_succ_left]
                exact hlt
          · show g (i + (rest.length + 1)) = true ∨ 1 ≤ advanceN inc p (rest.length + 1)
            rcases e3 with h3 | h3
            · left
              have harith : i + (rest.length + 1) = i + 1 + rest.length := by omega
              rw [harith]
              exact h3
            · right
              rw [advanceN_succ_left]
              exact h3
        | panicked rest =>
          rw [hrec] at h
          simp [WorkerResult.push] at h
        | outOfFuel rest =>
          rw [hrec] at h
          simp [WorkerResult.push] at h
      · rw [if_neg hp] at h
        obtain rfl : ([] : List ℚ) = msgs := by injection h
        refine ⟨rfl, by simp, Or.inr ?_⟩
        show 1 ≤ advanceN inc p 0
        simpa [advanceN] using not_lt.mp hp

lemma workerLoop_total (g : Nat → Bool) (inc : ℚ) (hinc : 0 ≤ inc) :
    ∀ (fuel i : Nat) (p : ℚ), 1 ≤ p + (fuel : ℚ) * inc →
      ∃ msgs, workerLoop (fun j => some (g j)) inc (fuel + 1) i p = .finished msgs := by
  intro fuel
  induction fuel with
  | zero =>
    intro i p hp
    cases hg : g i with
    | true => exact ⟨[], workerLoop_succ_true _ _ _ _ _ (congrArg some hg)⟩
    | false =>
      refine ⟨[], ?_⟩
      rw [workerLoop_succ_false _ _ _ _ _ (congrArg some hg)]
      have hnlt : ¬ p < 1 := not_lt.mpr (by push_cast at hp; linarith)
      rw [if_neg hnlt]
  | succ fuel ih =>
    intro i p hp
    cases hg : g i with
    | true => exact ⟨[], workerLoop_succ_true _ _ _ _ _ (congrArg some hg)⟩
    | false =>
      by_cases hplt : p < 1
      · have hrec : 1 ≤ advance inc p + (fuel : ℚ) * inc := by
          rcases le_total (p + inc) 1 with hle | hle
          · have hadv : advance inc p = p + inc := min_eq_left hle
            rw [hadv]
            push_cast at hp
            linarith
          · have hadv : advance inc p = 1 := min_eq_right hle
            rw [hadv]
            have hmul : 0 ≤ (fuel : ℚ) * inc := mul_nonneg (Nat.cast_nonneg fuel) hinc
            linarith
        obtain ⟨msgs, hmsgs⟩ := ih (i + 1) (advance inc p) hrec
        refine ⟨advance inc p :: msgs, ?_⟩
        rw [workerLoop_succ_false _ _ _ _ _ (congrArg some hg), if_pos hplt, hmsgs]
        rfl
      · refine ⟨[], ?_⟩
        rw [workerLoop_succ_false _ _ _ _ _ (congrArg some hg), if_neg hplt]

lemma workerLoop_sent_range (hdl : Nat → Option Bool) (inc : ℚ) (hinc : 0 ≤ inc) :
    ∀ (fuel i : Nat) (p : ℚ), 0 ≤ p →
      ∀ v ∈ (workerLoop hdl inc fuel i p).sent, 0 ≤ v ∧ v ≤ 1 := by
  intro fuel
  induction fuel with
  | zero =>
    intro i p hp v hv
    rw [workerLoop_zero] at hv
    simp [WorkerResult.sent] at hv
  | succ fuel ih =>
    intro i p hp v hv
    cases hd : hdl i with
    | none =>
      rw [workerLoop_succ_none _ _ _ _ _ hd] at hv
      simp [WorkerResult.sent] at hv
    | some b =>
      cases b with
      | true =>
        rw [workerLoop_succ_true _ _ _ _ _ hd] at hv
        simp [WorkerResult.sent] at hv
      | false =>
        rw [workerLoop_succ_false _ _ _ _ _ hd] at hv
        by_cases hplt : p < 1
        · rw [if_pos hplt, WorkerResult.sent_push] at hv
          rcases List.mem_cons.mp hv with rfl | hv2
          · exact ⟨advance_nonneg _ _ hinc hp, advance_le_one _ _⟩
          · exact ih (i + 1) (advance inc p) (advance_nonneg _ _ hinc hp) v hv2
        · rw [if_neg hplt] at hv
          simp [WorkerResult.sent] at hv

lemma workerLoop_sent_chain (hdl : Nat → Option Bool) (inc : ℚ) (hinc : 0 ≤ inc) :
    ∀ (fuel i : Nat) (p : ℚ), 0 ≤ p → p ≤ 1 →
      List.Chain (fun a b => a ≤ b) p (workerLoop hdl inc fuel i p).sent := by
  intro fuel
  induction fuel with
  | zero =>
    intro i p hp0 hp1
    rw [workerLoop_zero]
    exact List.Chain.nil
  | succ fuel ih =>
    intro i p hp0 hp1
    cases hd : hdl i with
    | none =>
      rw [workerLoop_succ_none _ _ _ _ _ hd]
      exact List.Chain.nil
    | some b =>
      cases b with
      | true =>
        rw [workerLoop_succ_true _ _ _ _ _ hd]
        exact List.Chain.nil
      | false =>
        rw [workerLoop_succ_false _ _ _ _ _ hd]
        by_cases hplt : p < 1
        · rw [if_pos hplt, WorkerResult.sent_push]
          exact List.Chain.cons (le_advance _ _ hinc hp1)
            (ih (i + 1) (advance inc p) (advance_nonneg _ _ hinc hp0) (advance_le_one _ _))
        · rw [if_neg hplt]
          exact List.Chain.nil

lemma chain_to_chain (a : ℚ) (l : List ℚ)
    (h : List.Chain (fun x y => x ≤ y) a l) : List.Chain' (fun x y => x ≤ y) l := by
  cases l with
  | nil => trivial
  | cons b t => exact (List.chain_cons.mp h).2

/-- C2: a `background_task` run over a cancellation-flag trace `g` (all flag
reads succeeding) behaves as the claimed loop: the messages sent are the
successive `advance`d-and-clamped progress values with the fixed increment
(one send per tick, so `msgs = sentList increment 0 msgs.length`); the loop
ran iteration `j` exactly while the flag read false and progress was below 1,
and stopped exactly when the flag was observed true or progress reached 1; the
tick slept each iteration is the fixed 500ms and the increment is the fixed
0.01; and with the flag never failing, any fuel beyond 100 iterations
suffices for the loop to finish on its own. -/
theorem c2_worker_loop (g : Nat → Bool) (fuel : Nat) (msgs : List ℚ)
    (hrun : background_task (fun i => some (g i)) fuel = .finished msgs) :
    msgs = sentList increment 0 msgs.length
    ∧ (∀ j, j < msgs.length → g j = false ∧ advanceN increment 0 j < 1)
    ∧ (g msgs.length = true ∨ 1 ≤ advanceN increment 0 msgs.length)
    ∧ increment = 1 / 100 ∧ tickMillis = 500
    ∧ (∀ (g2 : Nat → Bool) (f2 : Nat), 100 < f2 →
        ∃ m2, background_task (fun i => some (g2 i)) f2 = .finished m2) := by
  obtain ⟨e1, e2, e3⟩ := workerLoop_finished_spec g increment fuel 0 0 msgs hrun
  refine ⟨e1, ?_, by simpa using e3, rfl, rfl, ?_⟩
  · intro j hj
    simpa using e2 j hj
  · intro g2 f2 hf2
    obtain ⟨f3, rfl⟩ : ∃ f3, f2 = f3 + 1 := ⟨f2 - 1, by omega⟩
    apply workerLoop_total g2 increment (by norm_num [increment]) f3 0 0
    have hcast : (100 : ℚ) ≤ (f3 : ℚ) := by
      exact_mod_cast Nat.le_of_lt_succ hf2
    rw [increment]
    linarith

/-- C2 witness: a run whose flag trace reads false three times and then true,
with fuel 10: three ticks are sent and the loop stops on the cancellation. -/
theorem c2_worker_loop_witness :
    ([1 / 100, 1 / 50, 3 / 100] : List ℚ) =
      sentList increment 0 ([1 / 100, 1 / 50, 3 / 100] : List ℚ).length
    ∧ (∀ j, j < ([1 / 100, 1 / 50, 3 / 100] : List ℚ).length →
        [false, false, false, true].getD j true = false ∧ advanceN increment 0 j < 1)
    ∧ ([false, false, false, true].getD ([1 / 100, 1 / 50, 3 / 100] : List ℚ).length true
          = true
        ∨ 1 ≤ advanceN increment 0 ([1 / 100, 1 / 50, 3 / 100] : List ℚ).length)
    ∧ increment = 1 / 100 ∧ tickMillis = 500
    ∧ (∀ (g2 : Nat → Bool) (f2 : Nat), 100 < f2 →
        ∃ m2, background_task (fun i => some (g2 i)) f2 = .finished m2) :=
  c2_worker_loop (fun i => [false, false, false, true].getD i true) 10
    [1 / 100, 1 / 50, 3 / 100]
    (by norm_num [background_task, workerLoop, advance, increment, min_def,
      WorkerResult.push])

/-- C6: within a single worker run the progress values sent are non-decreasing
and all lie in `[0, 1]`; and a run that starts at progress 0 and ticks `N`
times with increment `i ≥ 0` has progress exactly `min 1 (N * i)` after the
`N`-th tick. -/
theorem c6_progress_monotone (g : Nat → Bool) (fuel : Nat) (msgs : List ℚ)
    (hrun : background_task (fun i => some (g i)) fuel = .finished msgs) :
    List.Chain' (fun x y => x ≤ y) msgs
    ∧ (∀ v ∈ msgs, 0 ≤ v ∧ v ≤ 1)
    ∧ (∀ (i : ℚ) (N : Nat), 0 ≤ i → advanceN i 0 N = min 1 ((N : ℚ) * i)) := by
  have hinc : (0 : ℚ) ≤ increment := by norm_num [increment]
  have hrun2 : workerLoop (fun i => some (g i)) increment fuel 0 0 = .finished msgs :=
    hrun
  have hchain := workerLoop_sent_chain (fun i => some (g i)) increment hinc fuel 0 0
    le_rfl (by norm_num)
  have hrange := workerLoop_sent_range (fun i => some (g i)) increment hinc fuel 0 0
    le_rfl
  rw [hrun2] at hchain hrange
  exact ⟨chain_to_chain 0 msgs hchain, hrange,
    fun i N hi => advanceN_formula i hi N⟩

/-- C6 witness: the three-tick run of the C2 scenario, whose sent values are
non-decreasing and within range. -/
theorem c6_progress_monotone_witness :
    List.Chain' (fun x y => x ≤ y) ([1 / 100, 1 / 50, 3 / 100] : List ℚ)
    ∧ (∀ v ∈ ([1 / 100, 1 / 50, 3 / 100] : List ℚ), 0 ≤ v ∧ v ≤ 1)
    ∧ (∀ (i : ℚ) (N : Nat), 0 ≤ i → advanceN i 0 N = min 1 ((N : ℚ) * i)) :=
  c6_progress_monotone (fun i => [false, false, false, true].getD i true) 10
    [1 / 100, 1 / 50, 3 / 100]
    (by norm_num [background_task, workerLoop, advance, increment, min_def,
      WorkerResult.push])

/-- C8: if the owning handle is already gone at the worker's first flag read,
the worker panics (the `unwrap`-style failure) without sending anything; in
particular the run is not a normal termination, so a dead handle is not
treated as an already-cancelled token. -/
theorem c8_dead_handle_panics (hdl : Nat → Option Bool) (fuel : Nat)
    (hdead : hdl 0 = none) :
    background_task hdl (fuel + 1) = .panicked []
    ∧ ∀ msgs, background_task hdl (fuel + 1) ≠ .finished msgs := by
  have h := workerLoop_succ_none hdl increment fuel 0 0 hdead
  refine ⟨h, fun msgs hne => ?_⟩
  have hne2 : workerLoop hdl increment (fuel + 1) 0 0 = .finished msgs := hne
  rw [h] at hne2
  cases hne2

/-- C8 witness: a worker whose handle is dead from the start. -/
theorem c8_dead_handle_panics_witness :
    background_task (fun _ => none) 1 = .panicked []
    ∧ ∀ msgs, background_task (fun _ => none) 1 ≠ .finished msgs :=
  c8_dead_handle_panics (fun _ => none) 0 rfl

/-- C9 counterexample: the host does not clamp the delivered fraction; a
delivered `BackgroundTask 2` event is stored as progress 2, which is outside
`[0, 1]`, refuting the claimed defensive clamp. -/
theorem c9_no_defensive_clamp_counterexample :
    processEvent [] Host.new (.BackgroundTask 2) =
      some { Host.new with background_progress := 2 }
    ∧ ∀ h2, processEvent [] Host.new (.BackgroundTask 2) = some h2 →
        ¬ h2.background_progress ≤ 1 := by
  refine ⟨rfl, fun h2 heq => ?_⟩
  obtain rfl : ({ Host.new with background_progress := 2 } : Host) = h2 := by
    injection heq
  norm_num [Host.new]

/-- C9 (amended): every progress fraction a worker run actually sends lies in
`[0, 1]`, and the host stores each delivered fraction unchanged (it performs
no defensive clamp of its own), so the stored progress stays in `[0, 1]`
exactly because the worker's values do. -/
theorem c9_progress_range (hdl : Nat → Option Bool) (fuel : Nat) :
    (∀ v ∈ (background_task hdl fuel).sent, 0 ≤ v ∧ v ≤ 1)
    ∧ (∀ (counts : List Nat) (h : Host) (p : ℚ),
        processEvent counts h (.BackgroundTask p) =
          some { h with background_progress := p }) := by
  constructor
  · intro v hv
    exact workerLoop_sent_range hdl increment (by norm_num [increment]) fuel 0 0
      le_rfl v hv
  · intro counts h p
    rfl

end TUI
